import Mathlib

/-!
Verification of the amber2sigen slot-series compiler and override engine
(`amber_to_sigen.py`, v24).

Shallow embedding conventions:
* Instants are modelled as integer minutes (`Int`); `datetime.astimezone(tz)`
  is modelled by adding a fixed offset in minutes (`tzOff`).  Daylight-saving
  transitions only affect the interim labels, which `canonicalize_series_to_day`
  discards, so a fixed offset is faithful for the properties proved here.
  Python's `//` and `%` (floor division, non-negative remainder for a positive
  divisor) are modelled by Lean's `/` and `%` on `Int` (`Int.ediv` and
  `Int.emod`); all divisors in the source are positive.
* Prices (Python floats) are modelled as exact rationals (`ℚ`); `round(x, 2)`
  is modelled as round-half-to-even at two decimals on the exact value.
* Strings are manipulated through their character lists.  Python's `int()`
  and `str.strip()` are modelled with the full CPython semantics: the
  complete `str.isspace()` whitespace set and the complete table of Unicode
  decimal digits (category `Nd`), plus `int()`'s digit-grouping underscores,
  all taken from CPython 3.11 / Unicode 14.  (Lean strings hold Unicode
  scalar values, so Python strings containing lone surrogates — on which
  `_norm_label` just takes its exception path — are outside the model's
  domain.)
* `stderr` prints are modelled as an explicit list of `LogEvent`s; the exact
  printf formatting of numbers inside those messages is not modelled.
-/

namespace A2S

/-! ## Python string primitives (character-list level) -/

/-- The code points of every character for which Python `str.isspace()` is
true (CPython 3.11, Unicode 14): this is exactly the set stripped by
`str.strip()` and skipped around a number by `int()`. -/
def pyWsCodes : List Nat :=
  [0x9, 0xA, 0xB, 0xC, 0xD, 0x1C, 0x1D, 0x1E, 0x1F, 0x20, 0x85, 0xA0, 0x1680,
   0x2000, 0x2001, 0x2002, 0x2003, 0x2004, 0x2005, 0x2006, 0x2007, 0x2008,
   0x2009, 0x200A, 0x2028, 0x2029, 0x202F, 0x205F, 0x3000]

/-- Python whitespace test (`str.isspace()` on one character). -/
def isPyWs (c : Char) : Bool := pyWsCodes.contains c.toNat

/-- Drop trailing characters satisfying `p` (via reversal). -/
def dropTrailing (p : Char → Bool) (cs : List Char) : List Char :=
  (cs.reverse.dropWhile p).reverse

/-- Python `s.strip()`. -/
def pyStrip (cs : List Char) : List Char :=
  dropTrailing isPyWs (cs.dropWhile isPyWs)

/-- Python `s.strip().replace(" ", "")`: strip ends, then delete every space. -/
def stripAndRemoveSpaces (cs : List Char) : List Char :=
  (pyStrip cs).filter (fun c => c != ' ')

/-- Python `s.split(sep, 1)` when at least one separator occurs:
`some (before, after)` for the first occurrence, `none` if absent. -/
def splitFirst (sep : Char) : List Char → Option (List Char × List Char)
  | [] => none
  | c :: rest =>
    if c == sep then some ([], rest)
    else (splitFirst sep rest).map (fun p => (c :: p.1, p.2))

/-- Python `s.split(sep)` (always at least one part, empty parts kept). -/
def splitAll (sep : Char) : List Char → List (List Char)
  | [] => [[]]
  | c :: rest =>
    if c == sep then [] :: splitAll sep rest
    else
      match splitAll sep rest with
      | [] => [[c]]
      | h :: t => (c :: h) :: t

/-- ASCII decimal digits: the characters produced by `f"{n:02d}"` formatting
(a proof-side helper; the `int()` model accepts the full Unicode set). -/
def isDig (c : Char) : Bool :=
  c ∈ ['0', '1', '2', '3', '4', '5', '6', '7', '8', '9']

def allDigits (cs : List Char) : Bool := cs.all isDig

/-- Numeric value of a digit character. -/
def dval (c : Char) : Nat := c.toNat - 48

/-- Accumulator loop for the value of a digit string. -/
def digitsValGo (acc : Nat) : List Char → Nat
  | [] => acc
  | c :: cs => digitsValGo (acc * 10 + dval c) cs

/-- Value of a (non-empty, all-digit) string, leading zeros allowed. -/
def digitsVal (cs : List Char) : Nat := digitsValGo 0 cs

/-- The decimal digit character for `0 ≤ k ≤ 9` (callers keep `k < 10`). -/
def digitChar : Nat → Char
  | 0 => '0' | 1 => '1' | 2 => '2' | 3 => '3' | 4 => '4'
  | 5 => '5' | 6 => '6' | 7 => '7' | 8 => '8' | _ => '9'

/-- Structural-fuel loop for decimal digits; callers pass `fuel > n`, which
bounds the digit count, so the fuel never runs out. -/
def natToDigitsGo (fuel : Nat) (n : Nat) : List Char :=
  match fuel with
  | 0 => []
  | f + 1 =>
    if n < 10 then [digitChar n]
    else natToDigitsGo f (n / 10) ++ [digitChar (n % 10)]

/-- Decimal digits of a natural number (Python `str(n)` for `n ≥ 0`). -/
def natToDigits (n : Nat) : List Char := natToDigitsGo (n + 1) n

/-- First code point of each run of ten consecutive Unicode decimal digits
(category `Nd`, digit values 0–9): every character Python `int()` accepts as
a digit lies in one of these runs (CPython 3.11, Unicode 14); the ASCII run
`0x30` comes first. -/
def ndBases : List Nat :=
  [0x30, 0x660, 0x6F0, 0x7C0, 0x966, 0x9E6, 0xA66, 0xAE6, 0xB66, 0xBE6,
   0xC66, 0xCE6, 0xD66, 0xDE6, 0xE50, 0xED0, 0xF20, 0x1040, 0x1090, 0x17E0,
   0x1810, 0x1946, 0x19D0, 0x1A80, 0x1A90, 0x1B50, 0x1BB0, 0x1C40, 0x1C50,
   0xA620, 0xA8D0, 0xA900, 0xA9D0, 0xA9F0, 0xAA50, 0xABF0, 0xFF10, 0x104A0,
   0x10D30, 0x11066, 0x110F0, 0x11136, 0x111D0, 0x112F0, 0x11450, 0x114D0,
   0x11650, 0x116C0, 0x11730, 0x118E0, 0x11950, 0x11C50, 0x11D50, 0x11DA0,
   0x16A60, 0x16AC0, 0x16B50, 0x1D7CE, 0x1D7D8, 0x1D7E2, 0x1D7EC, 0x1D7F6,
   0x1E140, 0x1E2F0, 0x1E950, 0x1FBF0]

/-- Decimal value of a character under Python `int()` (any Unicode `Nd`
digit), or `none` for a non-digit. -/
def pyDigit? (c : Char) : Option Nat :=
  match ndBases.find? (fun b => b ≤ c.toNat && c.toNat < b + 10) with
  | some b => some (c.toNat - b)
  | none => none

/-- The digit tail of Python `int()`'s grammar: digits with single
underscores allowed only BETWEEN digits (`1_0` parses, `1_`, `1__0` do not). -/
def digitsParsePy (acc : Nat) : List Char → Option Nat
  | [] => some acc
  | c :: rest =>
    if c == '_' then
      match rest with
      | [] => none
      | c2 :: rest2 =>
        match pyDigit? c2 with
        | some d => digitsParsePy (acc * 10 + d) rest2
        | none => none
    else
      match pyDigit? c with
      | some d => digitsParsePy (acc * 10 + d) rest
      | none => none

/-- A digit part must START with a digit (so `_1` is rejected). -/
def pyIntDigits : List Char → Option Nat
  | [] => none
  | c :: rest =>
    match pyDigit? c with
    | some d => digitsParsePy d rest
    | none => none

/-- Python `int(s)`: optional surrounding whitespace, an optional ASCII
sign, then a digit part of Unicode decimal digits with grouping
underscores. -/
def pyInt (cs : List Char) : Option Int :=
  match pyStrip cs with
  | [] => none
  | c :: rest =>
    if c == '-' then (pyIntDigits rest).map (fun n => -(n : Int))
    else if c == '+' then (pyIntDigits rest).map (fun n => (n : Int))
    else (pyIntDigits (c :: rest)).map (fun n => (n : Int))

/-- Python `f"{n:02d}"`: sign then digits, zero-padded to width 2. -/
def fmt02 (n : Int) : List Char :=
  if n < 0 then '-' :: natToDigits n.natAbs
  else
    let ds := natToDigits n.toNat
    if ds.length < 2 then '0' :: ds else ds

/-! ## Label normalization (`_norm_label`, v24) -/

/-- Suffix test `s.endswith("-00:00")`. -/
def endsDash0000 (cs : List Char) : Bool :=
  List.isSuffixOf ['-', '0', '0', ':', '0', '0'] cs

/-- Python `s[:-5]`. -/
def pyDropLast5 (cs : List Char) : List Char := cs.take (cs.length - 5)

/-- The `if s.endswith("-00:00"): s = s[:-5] + "-24:00"` step of `_norm_label`.
Note the source keeps the original dash (`s[:-5]` ends in `'-'`), so the
replacement yields a double hyphen. -/
def mapEnd00 (cs : List Char) : List Char :=
  if endsDash0000 cs then pyDropLast5 cs ++ ['-', '2', '4', ':', '0', '0'] else cs

/-- Reformat of the four parsed fields `f"{ah:02d}:{am:02d}-{bh:02d}:{bm:02d}"`. -/
def fmtQuad (ah am bh bm : Int) : List Char :=
  fmt02 ah ++ ':' :: (fmt02 am ++ '-' :: (fmt02 bh ++ ':' :: fmt02 bm))

/-- The `try` body of `_norm_label`: `a, b = s.split("-", 1)`,
`ah, am = a.split(":")`, `bh, bm = b.split(":")`, `int` of each part.
`none` models any raised exception. -/
def parseBody (cs : List Char) : Option (Int × Int × Int × Int) :=
  match splitFirst '-' cs with
  | none => none
  | some (a, b) =>
    match splitAll ':' a, splitAll ':' b with
    | [ah, am], [bh, bm] =>
      match pyInt ah, pyInt am, pyInt bh, pyInt bm with
      | some x, some y, some z, some w => some (x, y, z, w)
      | _, _, _, _ => none
    | _, _ => none

/-- `_norm_label` on character lists. -/
def normChars (cs : List Char) : List Char :=
  let s2 := mapEnd00 (stripAndRemoveSpaces cs)
  match parseBody s2 with
  | some (ah, am, bh, bm) => fmtQuad ah am bh bm
  | none => s2

/-- `_norm_label`. -/
def normLabel (s : String) : String := String.mk (normChars s.data)

/-- Python `lbl.split("-", 1)[0]`: the part before the first dash, or the
whole string when no dash occurs. -/
def startPart (cs : List Char) : List Char :=
  match splitFirst '-' cs with
  | none => cs
  | some p => p.1

/-- Label prefix test `tr.startswith("00:00-")` used by the rotator. -/
def startsMidnight (s : String) : Bool :=
  List.isPrefixOf ['0', '0', ':', '0', '0', '-'] s.data

/-- `_half_hour_index_from_label`: 0..47 bucket index from the start `HH:MM`
of the (normalized) label; `none` models the caught exception. -/
def halfHourIndexFromLabel (label : String) : Option Int :=
  match splitAll ':' (startPart (normChars label.data)) with
  | [h, m] =>
    match pyInt h, pyInt m with
    | some hh, some mm =>
      let hm : Int × Int := if hh = 24 ∧ mm = 0 then (23, 30) else (hh, mm)
      some ((hm.1 * 60 + hm.2) / 30)
    | _, _ => none
  | _ => none

/-! ## Rounding

Python `round(x, 2)` (round-half-to-even), modelled on exact rationals. -/

def roundHalfEven (x : ℚ) : Int :=
  let n := x.floor
  let r := x - n
  if r < 1 / 2 then n
  else if 1 / 2 < r then n + 1
  else if n % 2 = 0 then n else n + 1

def round2 (q : ℚ) : ℚ := (roundHalfEven (100 * q) : ℚ) / 100

/-! ## Data model

A provider row (`RawPriceRow`).  Optional fields model absent dictionary
keys; `startTime`/`endTime` are the parsed UTC instants in minutes, with
`none` standing for an absent or unparsable timestamp (both are dropped
identically by the source's `continue`/`except`). -/

structure AdvancedPrice where
  low : Option ℚ := none
  predicted : Option ℚ := none
  high : Option ℚ := none
deriving DecidableEq, Repr

structure Row where
  rtype : String := ""
  startTime : Option Int := none
  endTime : Option Int := none
  perKwh : Option ℚ := none
  spotPerKwh : Option ℚ := none
  advancedPrice : Option AdvancedPrice := none
deriving DecidableEq, Repr

/-- Named field access on the nested `advancedPrice` dict. -/
def advField (a : AdvancedPrice) (name : String) : Option ℚ :=
  if name = "low" then a.low
  else if name = "predicted" then a.predicted
  else if name = "high" then a.high
  else none

/-- Top-level numeric field access `row.get(key)` (non-numeric fields such as
`type` make the source's `float(v)` raise, which `get_value` catches). -/
def rowField (r : Row) (name : String) : Option ℚ :=
  if name = "perKwh" then r.perKwh
  else if name = "spotPerKwh" then r.spotPerKwh
  else none

/-- `get_value(row, key)` with dotted-path support
(`advancedPrice.low|predicted|high`); any exception yields `none`. -/
def getValue (row : Option Row) (key : String) : Option ℚ :=
  match row with
  | none => none
  | some r =>
    if key.contains '.' then
      match splitFirst '.' key.data with
      | some (outer, inner) =>
        if String.mk outer = "advancedPrice" then
          match r.advancedPrice with
          | some adv => advField adv (String.mk inner)
          | none => none
        else none
      | none => none
    else rowField r key

/-! ## Python dict (insertion-ordered, last-write-wins on duplicate keys) -/

def pyDictInsert (m : List (Int × Row)) (k : Int) (v : Row) : List (Int × Row) :=
  if m.any (fun p => p.1 == k) then
    m.map (fun p => if p.1 == k then (k, v) else p)
  else m ++ [(k, v)]

def pyDictFind (m : List (Int × Row)) (k : Int) : Option Row :=
  (m.find? (fun p => p.1 == k)).map (fun p => p.2)

def pyDictKeys (m : List (Int × Row)) : List Int := m.map Prod.fst

/-! ## Slot building and indexing -/

/-- `floor_to_step`: zero seconds and floor the minute field to the step
(the instant `t` is in minutes, so its wall-clock minute is `t % 60`). -/
def floorToStep (t : Int) (stepMin : Int) : Int :=
  t - t % 60 + (t % 60 / stepMin) * stepMin

/-- `index_prices_by_start_utc`. -/
def indexPricesByStart (rows : List Row) (stepMin : Int) : List (Int × Row) :=
  rows.foldl
    (fun m r =>
      match r.startTime with
      | none => m
      | some t => pyDictInsert m (floorToStep t stepMin) r) []

/-- `index_prices_by_end_utc`. -/
def indexPricesByEnd (rows : List Row) (stepMin : Int) : List (Int × Row) :=
  rows.foldl
    (fun m r =>
      match r.endTime with
      | none => m
      | some t => pyDictInsert m (floorToStep t stepMin) r) []

/-- The `while t < end` loop of `build_window`, with structural fuel: for a
positive step each iteration advances `t` by at least one minute, so
`(e - t).toNat` bounds the iteration count and the fuel never runs out. -/
def windowLoopGo (stepMin : Int) (fuel : Nat) (t e : Int) : List (Int × Int) :=
  match fuel with
  | 0 => []
  | f + 1 =>
    if t < e then (t, t + stepMin) :: windowLoopGo stepMin f (t + stepMin) e
    else []

/-- The `while t < end` loop of `build_window` (the Python loop diverges for a
non-positive step, which never occurs; the guard keeps the model total). -/
def windowLoop (stepMin : Int) (t e : Int) : List (Int × Int) :=
  if 0 < stepMin then windowLoopGo stepMin (e - t).toNat t e else []

/-- `build_window`: floor "now" (local wall time) to the step, convert to UTC,
emit `[start, end)` ranges over the next `totalMinutes`. -/
def buildWindow (nowLocal tzOff stepMin : Int) (totalMinutes : Int := 1440) :
    List (Int × Int) :=
  let startUtc := floorToStep nowLocal stepMin - tzOff
  windowLoop stepMin startUtc (startUtc + totalMinutes)

/-! ## Baseline resolver -/

/-- The `index_prices_by_end_utc(...) if align == "end" else
index_prices_by_start_utc(...)` selection shared by `last_known_before` and
`build_series_for_window`. -/
def alignIndex (rows : List Row) (stepMin : Int) (align : String) : List (Int × Row) :=
  if align = "end" then indexPricesByEnd rows stepMin
  else indexPricesByStart rows stepMin

/-- `last_known_before`. -/
def lastKnownBefore (rows : List Row) (key : String) (stepMin : Int)
    (align : String) (nowUtc : Int) : Option ℚ :=
  let index := alignIndex rows stepMin align
  let prevKeys := (pyDictKeys index).filter (fun t => t < nowUtc)
  match prevKeys.max? with
  | none => none
  | some t => getValue (pyDictFind index t) key

/-! ## Series builder, rotator, canonicalizer -/

/-- `strftime("%H:%M")` of an instant `t` in minutes (epoch at a midnight). -/
def hhmmChars (t : Int) : List Char :=
  let m := t % 1440
  fmt02 (m / 60) ++ ':' :: fmt02 (m % 60)

/-- Anchor instant of a slot: start when `align == "start"`, else end. -/
def anchorOf (align : String) (slot : Int × Int) : Int :=
  if align = "start" then slot.1 else slot.2

/-- The slot loop of `build_series_for_window`, carrying `last` forward. -/
def buildGo (byKey : List (Int × Row)) (tzOff : Int) (key : String)
    (align : String) : ℚ → List (Int × Int) → List (String × ℚ)
  | _, [] => []
  | last, slot :: rest =>
    let val := getValue (pyDictFind byKey (anchorOf align slot)) key
    let last2 := match val with | some v => v | none => last
    (String.mk (hhmmChars (slot.1 + tzOff)) ++ "-" ++
       String.mk (hhmmChars (slot.2 + tzOff)), round2 last2) ::
      buildGo byKey tzOff key align last2 rest

/-- `build_series_for_window`. -/
def buildSeriesForWindow (slotsUtc : List (Int × Int)) (tzOff : Int)
    (rows : List Row) (key : String) (stepMin : Int) (align : String)
    (initialLast : Option ℚ) : List (String × ℚ) :=
  buildGo (alignIndex rows stepMin align) tzOff key align
    (match initialLast with | none => 0 | some v => v) slotsUtc

/-- Python `next((i for i, x in enumerate(l) if p x), None)`. -/
def findFirstIdx {α : Type} (p : α → Bool) : List α → Option Nat
  | [] => none
  | a :: rest => if p a then some 0 else (findFirstIdx p rest).map (· + 1)

/-- `rotate_series_to_midnight`. -/
def rotateSeriesToMidnight (series : List (String × ℚ)) : List (String × ℚ) :=
  match findFirstIdx (fun e => startsMidnight e.1) series with
  | none => series
  | some i => series.drop i ++ series.take i

/-- Canonical day label of entry `i`: `[i*step, (i+1)*step)` as `HH:MM-HH:MM`,
the final end rendered `24:00`. -/
def canonLabelChars (stepMin : Int) (i : Nat) : List Char :=
  let startMin : Int := (i : Int) * stepMin
  let endMin : Int := ((i : Int) + 1) * stepMin
  let sLbl := fmt02 (startMin / 60) ++ ':' :: fmt02 (startMin % 60)
  let eLbl := if endMin = 1440 then ['2', '4', ':', '0', '0']
              else fmt02 (endMin / 60) ++ ':' :: fmt02 (endMin % 60)
  sLbl ++ '-' :: eLbl

def canonLabel (stepMin : Int) (i : Nat) : String := String.mk (canonLabelChars stepMin i)

/-- `canonicalize_series_to_day`: relabel purely by index, keep prices. -/
def canonicalizeSeriesToDay (series : List (String × ℚ)) (stepMin : Int) :
    List (String × ℚ) :=
  series.enum.map (fun p => (canonLabel stepMin p.1, p.2.2))

/-- `_lookup_price_by_label` (v24-hardened). -/
def lookupPriceByLabel (series : List (String × ℚ)) (label : String) : Option ℚ :=
  let want := normChars label.data
  match series.find? (fun e => normChars e.1.data == want) with
  | some e => some e.2
  | none =>
    match series.find? (fun e => startPart (normChars e.1.data) == startPart want) with
    | some e => some e.2
    | none => none

/-! ## Override resolver (`main`, `/prices/current` handling) -/

/-- `rank_type`: Current (0) < Forecast (1) < anything else, e.g. Actual (2). -/
def rankType (t : String) : Nat :=
  if t = "CurrentInterval" then 0
  else if t = "ForecastInterval" then 1
  else 2

/-- `_dist`: absolute distance (here in minutes; the source uses seconds,
which only rescales comparisons) between the row's local start and the active
slot's local start; an unparsable start gets the huge sentinel `10^9`. -/
def distRow (tzOff activeStartLocal : Int) (r : Row) : Int :=
  match r.startTime with
  | some st => |st + tzOff - activeStartLocal|
  | none => 10 ^ 9

/-- The sort key comparison of `sorted(trip, key=lambda r: (rank_type r, dist r))`:
lexicographic on (rank, distance). -/
def tripLe (tzOff act : Int) (a b : Row) : Prop :=
  rankType a.rtype < rankType b.rtype ∨
    (rankType a.rtype = rankType b.rtype ∧ distRow tzOff act a ≤ distRow tzOff act b)

instance tripLeDec (tzOff act : Int) : DecidableRel (tripLe tzOff act) := fun _ _ =>
  inferInstanceAs (Decidable (_ ∨ _))

/-- `trip_sorted[0] if trip_sorted else None`: the chosen override candidate
(a stable ascending sort, then the head). -/
def chooseOverride (tzOff act : Int) (trip : List Row) : Option Row :=
  (List.insertionSort (tripLe tzOff act) trip).head?

/-! ## Override application (`main`, lines 622-680) -/

/-- Abstracted stderr lines emitted while applying the override (the exact
numeric formatting of the printed message text is not modelled). -/
inductive LogEvent
  | couldNotLocate (side : String) (target : String)
  | fatalNoIndex (side : String) (target : String)
  | skipBuyZeroOrMissing (lbl : String)
  | overrodeBuy (lbl : String) (oldv newv : ℚ)
  | skipSellMissing (lbl : String)
  | overrodeSell (lbl : String) (oldv newv : ℚ)
deriving DecidableEq, Repr

/-- The BUY patch body at a located index: skip (recording a `ZERO_EVENTS_BUY`
tag `"current <label>"`) when the candidate value is missing or `0.0`, else
replace the bucket's value with the candidate rounded to two decimals.
Returns (series, appended zero-event tags, stderr events). -/
def buyPatchAt (s : List (String × ℚ)) (i : Nat) (chosen : Option ℚ) :
    List (String × ℚ) × List String × List LogEvent :=
  match s.get? i with
  | none => (s, [], [])
  | some (lbl, oldv) =>
    match chosen with
    | none => (s, ["current " ++ lbl], [.skipBuyZeroOrMissing lbl])
    | some v =>
      if v = 0 then (s, ["current " ++ lbl], [.skipBuyZeroOrMissing lbl])
      else (s.set i (lbl, round2 v), [], [.overrodeBuy lbl oldv (round2 v)])

/-- The SELL patch body at a located index: skip only when the candidate value
is missing (zero is accepted), else replace with the rounded value. -/
def sellPatchAt (s : List (String × ℚ)) (i : Nat) (chosen : Option ℚ) :
    List (String × ℚ) × List LogEvent :=
  match s.get? i with
  | none => (s, [])
  | some (lbl, oldv) =>
    match chosen with
    | none => (s, [.skipSellMissing lbl])
    | some v => (s.set i (lbl, round2 v), [.overrodeSell lbl oldv (round2 v)])

/-- Target-bucket search: normalized exact label match, or start-of-range
prefix match. -/
def findLabelIdx (series : List (String × ℚ)) (target : String) : Option Nat :=
  findFirstIdx
    (fun e =>
      (normChars e.1.data == normChars target.data) ||
        (startPart (normChars e.1.data) == startPart (normChars target.data)))
    series

/-- The full BUY override application: locate the bucket by label, fall back to
the computed half-hour index (30-minute step only, bounds-checked), then patch. -/
def applyBuyOverride (buyRanges : List (String × ℚ)) (stepMin : Int)
    (target : String) (chosenBuy : Option ℚ) :
    List (String × ℚ) × List String × List LogEvent :=
  match findLabelIdx buyRanges target with
  | some i => buyPatchAt buyRanges i chosenBuy
  | none =>
    let fb := if stepMin = 30 then halfHourIndexFromLabel target else none
    match fb with
    | none => (buyRanges, [], [.couldNotLocate "BUY" target, .fatalNoIndex "BUY" target])
    | some i =>
      if 0 ≤ i ∧ i.toNat < buyRanges.length then
        let r := buyPatchAt buyRanges i.toNat chosenBuy
        (r.1, r.2.1, .couldNotLocate "BUY" target :: r.2.2)
      else (buyRanges, [], [.couldNotLocate "BUY" target, .fatalNoIndex "BUY" target])

/-- The full SELL override application (same lookup, zero accepted). -/
def applySellOverride (sellRanges : List (String × ℚ)) (stepMin : Int)
    (target : String) (chosenSell : Option ℚ) :
    List (String × ℚ) × List LogEvent :=
  match findLabelIdx sellRanges target with
  | some i => sellPatchAt sellRanges i chosenSell
  | none =>
    let fb := if stepMin = 30 then halfHourIndexFromLabel target else none
    match fb with
    | none => (sellRanges, [.couldNotLocate "SELL" target, .fatalNoIndex "SELL" target])
    | some i =>
      if 0 ≤ i ∧ i.toNat < sellRanges.length then
        let r := sellPatchAt sellRanges i.toNat chosenSell
        (r.1, .couldNotLocate "SELL" target :: r.2)
      else (sellRanges, [.couldNotLocate "SELL" target, .fatalNoIndex "SELL" target])

/-! ## Zero-safety gate (`main`, lines 759-766) -/

/-- Outcome of the final submission decision; every branch returns normally. -/
inductive SubmitOutcome
  | posted
  | skippedZero
  | skippedDryRun
deriving DecidableEq, Repr

/-- `final_has_zero = any(p == 0.0 for _, p in buy_ranges)`. -/
def finalHasZero (buyRanges : List (String × ℚ)) : Bool :=
  buyRanges.any (fun e => e.2 == 0)

/-- The final gate: skip the POST on `--dry-run`, or when the final BUY series
still contains a `0.0` and `--allow-zero-buy` is unset; otherwise POST. -/
def submitDecision (buyRanges : List (String × ℚ)) (dryRun allowZeroBuy : Bool) :
    SubmitOutcome :=
  let hz := finalHasZero buyRanges
  if dryRun || (hz && !allowZeroBuy) then
    if hz && !allowZeroBuy then .skippedZero else .skippedDryRun
  else .posted

/-! ## Derived notions used only to state properties -/

/-- The series stages of `main` relevant to the canonical-day property:
window, forecast series, rotation to midnight, canonical relabelling. -/
def pipelineSeries (nowLocal tzOff stepMin : Int) (rows : List Row)
    (key align : String) (seed : Option ℚ) : List (String × ℚ) :=
  canonicalizeSeriesToDay
    (rotateSeriesToMidnight
      (buildSeriesForWindow (buildWindow nowLocal tzOff stepMin) tzOff rows key
        stepMin align seed))
    stepMin

/-- Frame property relating a series to its overridden version: same length,
same labels in the same order, and at most one entry's value rewritten
(in-bounds, label preserved). -/
def frameOk (s r : List (String × ℚ)) : Prop :=
  r.length = s.length ∧ r.map Prod.fst = s.map Prod.fst ∧
    (r = s ∨ ∃ i lbl oldv v, i < s.length ∧ s.get? i = some (lbl, oldv) ∧
      r = s.set i (lbl, v))

/-! # Helper lemmas -/

theorem findFirstIdx_eq_none {α : Type} {p : α → Bool} {l : List α}
    (h : findFirstIdx p l = none) : ∀ a ∈ l, p a = false := by
  induction l with
  | nil => intro a ha; cases ha
  | cons b t ih =>
    intro a ha
    by_cases hb : p b = true
    · simp [findFirstIdx, hb] at h
    · have ht : findFirstIdx p t = none := by
        simp only [findFirstIdx, hb, Bool.false_eq_true, if_false] at h
        exact Option.map_eq_none'.mp h
      rcases List.mem_cons.mp ha with rfl | ha'
      · simpa using hb
      · exact ih ht a ha'

theorem findFirstIdx_eq_some {α : Type} {p : α → Bool} :
    ∀ {l : List α} {i : Nat}, findFirstIdx p l = some i →
      ∃ a, l.get? i = some a ∧ p a = true := by
  intro l
  induction l with
  | nil => intro i h; cases h
  | cons b t ih =>
    intro i h
    by_cases hb : p b
    · simp [findFirstIdx, hb] at h
      subst h
      exact ⟨b, rfl, hb⟩
    · simp only [findFirstIdx, hb, Bool.false_eq_true, if_false, Option.map_eq_some'] at h
      obtain ⟨j, hj, rfl⟩ := h
      obtain ⟨a, hget, hp⟩ := ih hj
      exact ⟨a, hget, hp⟩

theorem get?_some_lt {α : Type} {l : List α} {i : Nat} {a : α}
    (h : l.get? i = some a) : i < l.length := by
  by_contra hlt
  rw [List.get?_eq_none.mpr (by omega)] at h
  cases h

theorem rotateSeriesToMidnight_length (s : List (String × ℚ)) :
    (rotateSeriesToMidnight s).length = s.length := by
  unfold rotateSeriesToMidnight
  cases h : findFirstIdx (fun e => startsMidnight e.1) s with
  | none => rfl
  | some i =>
    obtain ⟨a, hget, _⟩ := findFirstIdx_eq_some h
    have := get?_some_lt hget
    simp [List.length_append]
    omega

theorem canonicalizeSeriesToDay_length (s : List (String × ℚ)) (stepMin : Int) :
    (canonicalizeSeriesToDay s stepMin).length = s.length := by
  simp [canonicalizeSeriesToDay]

theorem canonicalizeSeriesToDay_labels (s : List (String × ℚ)) (stepMin : Int) :
    (canonicalizeSeriesToDay s stepMin).map Prod.fst =
      (List.range s.length).map (canonLabel stepMin) := by
  unfold canonicalizeSeriesToDay
  rw [List.map_map]
  have : (Prod.fst ∘ fun p : Nat × (String × ℚ) => (canonLabel stepMin p.1, p.2.2)) =
      canonLabel stepMin ∘ Prod.fst := rfl
  rw [this, ← List.map_map, List.enum_map_fst]

theorem set_get?_eq {α : Type} : ∀ (l : List α) (i : Nat) (a : α),
    l.get? i = some a → l.set i a = l := by
  intro l
  induction l with
  | nil => intro i a h; cases h
  | cons b t ih =>
    intro i a h
    cases i with
    | zero => simp at h; simp [h]
    | succ j => simp at h ⊢; exact ih j a (by simpa using h)

theorem map_fst_set (s : List (String × ℚ)) (i : Nat) (lbl : String) (oldv v : ℚ)
    (h : s.get? i = some (lbl, oldv)) :
    (s.set i (lbl, v)).map Prod.fst = s.map Prod.fst := by
  rw [List.map_set]
  apply set_get?_eq
  rw [List.get?_map, h]
  rfl

theorem buyPatchAt_frame (s : List (String × ℚ)) (i : Nat) (c : Option ℚ) :
    frameOk s (buyPatchAt s i c).1 := by
  unfold buyPatchAt
  cases hg : s.get? i with
  | none => exact ⟨rfl, rfl, Or.inl rfl⟩
  | some e =>
    obtain ⟨lbl, oldv⟩ := e
    cases c with
    | none => exact ⟨rfl, rfl, Or.inl rfl⟩
    | some v =>
      by_cases hv : v = 0
      · simp only [hv, if_pos rfl]
        exact ⟨rfl, rfl, Or.inl rfl⟩
      · simp only [if_neg hv]
        refine ⟨List.length_set .., map_fst_set s i lbl oldv _ hg,
          Or.inr ⟨i, lbl, oldv, round2 v, get?_some_lt hg, hg, rfl⟩⟩

theorem sellPatchAt_frame (s : List (String × ℚ)) (i : Nat) (c : Option ℚ) :
    frameOk s (sellPatchAt s i c).1 := by
  unfold sellPatchAt
  cases hg : s.get? i with
  | none => exact ⟨rfl, rfl, Or.inl rfl⟩
  | some e =>
    obtain ⟨lbl, oldv⟩ := e
    cases c with
    | none => exact ⟨rfl, rfl, Or.inl rfl⟩
    | some v =>
      refine ⟨List.length_set .., map_fst_set s i lbl oldv _ hg,
        Or.inr ⟨i, lbl, oldv, round2 v, get?_some_lt hg, hg, rfl⟩⟩

/-! # C10 development: digit lemmas -/

theorem dval_digitChar {k : Nat} (hk : k < 10) : dval (digitChar k) = k := by
  interval_cases k <;> rfl

theorem isDig_digitChar {k : Nat} (hk : k < 10) : isDig (digitChar k) = true := by
  interval_cases k <;> rfl

theorem natToDigitsGo_all_dig : ∀ (fuel n : Nat), n < fuel →
    allDigits (natToDigitsGo fuel n) = true := by
  intro fuel
  induction fuel with
  | zero => intro n h; omega
  | succ f ih =>
    intro n h
    unfold natToDigitsGo
    by_cases h10 : n < 10
    · rw [if_pos h10]
      simp [allDigits, isDig_digitChar h10]
    · rw [if_neg h10]
      have hd : n / 10 < f := by
        have := Nat.div_lt_self (show 0 < n by omega) (show 1 < 10 by omega)
        omega
      have h1 := ih (n / 10) hd
      have h2 : isDig (digitChar (n % 10)) = true :=
        isDig_digitChar (Nat.mod_lt _ (by omega))
      simp [allDigits] at h1 ⊢
      exact ⟨h1, h2⟩

theorem natToDigits_all_dig (n : Nat) : allDigits (natToDigits n) = true :=
  natToDigitsGo_all_dig (n + 1) n (by omega)

theorem natToDigitsGo_ne_nil (fuel n : Nat) (h : n < fuel) :
    natToDigitsGo fuel n ≠ [] := by
  cases fuel with
  | zero => omega
  | succ f =>
    unfold natToDigitsGo
    by_cases h10 : n < 10
    · rw [if_pos h10]; simp
    · rw [if_neg h10]; simp

theorem natToDigits_ne_nil (n : Nat) : natToDigits n ≠ [] :=
  natToDigitsGo_ne_nil (n + 1) n (by omega)

theorem digitsValGo_append (xs : List Char) (c : Char) : ∀ acc,
    digitsValGo acc (xs ++ [c]) = 10 * digitsValGo acc xs + dval c := by
  induction xs with
  | nil =>
    intro acc
    show acc * 10 + dval c = 10 * acc + dval c
    omega
  | cons d ds ih =>
    intro acc
    show digitsValGo (acc * 10 + dval d) (ds ++ [c]) =
      10 * digitsValGo (acc * 10 + dval d) ds + dval c
    exact ih _

theorem digitsVal_singleton (c : Char) : digitsVal [c] = dval c := by
  show 0 * 10 + dval c = dval c
  omega

theorem digitsVal_natToDigitsGo : ∀ (fuel n : Nat), n < fuel →
    digitsVal (natToDigitsGo fuel n) = n := by
  intro fuel
  induction fuel with
  | zero => intro n h; omega
  | succ f ih =>
    intro n h
    unfold natToDigitsGo
    by_cases h10 : n < 10
    · rw [if_pos h10, digitsVal_singleton, dval_digitChar h10]
    · rw [if_neg h10]
      have hd : n / 10 < f := by
        have := Nat.div_lt_self (show 0 < n by omega) (show 1 < 10 by omega)
        omega
      unfold digitsVal
      rw [digitsValGo_append]
      have hrec := ih (n / 10) hd
      unfold digitsVal at hrec
      rw [hrec, dval_digitChar (Nat.mod_lt _ (by omega))]
      omega

theorem digitsVal_natToDigits (n : Nat) : digitsVal (natToDigits n) = n :=
  digitsVal_natToDigitsGo (n + 1) n (by omega)

theorem isDig_char_facts {c : Char} (h : isDig c = true) :
    isPyWs c = false ∧ (c == '-') = false ∧ (c == '+') = false ∧
      (c == ':') = false ∧ (c != ' ') = true ∧ (c == '_') = false := by
  have hc : c ∈ ['0', '1', '2', '3', '4', '5', '6', '7', '8', '9'] := by
    simpa [isDig] using h
  fin_cases hc <;> exact ⟨by decide, rfl, rfl, rfl, rfl, rfl⟩

/-! # C10 development: strip and filter noop lemmas -/

theorem not_space_of_not_ws {c : Char} (h : isPyWs c = false) : (c != ' ') = true := by
  cases hcc : c == ' '
  · simp [bne, hcc]
  · exfalso
    have hc : c = ' ' := by simpa using hcc
    rw [hc] at h
    exact absurd h (by decide)

theorem dropWhile_all_false {p : Char → Bool} : ∀ {cs : List Char},
    (∀ c ∈ cs, p c = false) → cs.dropWhile p = cs := by
  intro cs h
  cases cs with
  | nil => rfl
  | cons a t =>
    rw [List.dropWhile_cons, if_neg]
    simp [h a (List.mem_cons_self ..)]

theorem pyStrip_eq_self_all {cs : List Char} (h : ∀ c ∈ cs, isPyWs c = false) :
    pyStrip cs = cs := by
  unfold pyStrip dropTrailing
  rw [dropWhile_all_false h,
    dropWhile_all_false (fun c hc => h c (List.mem_reverse.mp hc)),
    List.reverse_reverse]

theorem head?_dropWhile {p : Char → Bool} : ∀ {cs : List Char} {a : Char},
    (cs.dropWhile p).head? = some a → p a = false := by
  intro cs
  induction cs with
  | nil => intro a h; cases h
  | cons b t ih =>
    intro a h
    rw [List.dropWhile_cons] at h
    by_cases hb : p b = true
    · rw [if_pos hb] at h; exact ih h
    · rw [if_neg hb] at h
      simp only [List.head?_cons, Option.some_inj] at h
      rw [← h]
      simpa using hb

theorem stripNoop_of_ends {cs : List Char}
    (h1 : ∀ a, cs.head? = some a → isPyWs a = false)
    (h2 : ∀ a, cs.getLast? = some a → isPyWs a = false) :
    pyStrip cs = cs := by
  unfold pyStrip dropTrailing
  have hd : cs.dropWhile isPyWs = cs := by
    cases cs with
    | nil => rfl
    | cons b t =>
      rw [List.dropWhile_cons, if_neg]
      simp [h1 b rfl]
  rw [hd]
  have hr : cs.reverse.dropWhile isPyWs = cs.reverse := by
    cases hcr : cs.reverse with
    | nil => rfl
    | cons b t =>
      rw [List.dropWhile_cons, if_neg]
      have hb : cs.getLast? = some b := by
        rw [List.getLast?_eq_head?_reverse, hcr]; rfl
      simp [h2 b hb]
  rw [hr, List.reverse_reverse]

theorem sf_noop {cs : List Char}
    (h1 : ∀ a, cs.head? = some a → isPyWs a = false)
    (h2 : ∀ a, cs.getLast? = some a → isPyWs a = false)
    (h3 : ∀ c ∈ cs, (c != ' ') = true) :
    stripAndRemoveSpaces cs = cs := by
  unfold stripAndRemoveSpaces
  rw [stripNoop_of_ends h1 h2, List.filter_eq_self.mpr h3]

theorem sf_noop_all {cs : List Char} (h : ∀ c ∈ cs, isPyWs c = false) :
    stripAndRemoveSpaces cs = cs := by
  unfold stripAndRemoveSpaces
  rw [pyStrip_eq_self_all h, List.filter_eq_self.mpr
    (fun c hc => not_space_of_not_ws (h c hc))]

theorem sf_no_space (cs : List Char) :
    ∀ c ∈ stripAndRemoveSpaces cs, (c != ' ') = true := by
  intro c hc
  unfold stripAndRemoveSpaces at hc
  exact (List.mem_filter.mp hc).2

theorem head?_dropTrailing {p : Char → Bool} {y : List Char} {a : Char}
    (h : (dropTrailing p y).head? = some a) : y.head? = some a := by
  obtain ⟨pre, hpre⟩ := List.dropWhile_suffix (l := y.reverse) p
  have hy : y = (y.reverse.dropWhile p).reverse ++ pre.reverse := by
    have h2 := congrArg List.reverse hpre
    simpa [List.reverse_append] using h2.symm
  unfold dropTrailing at h
  cases hdw : (y.reverse.dropWhile p).reverse with
  | nil => rw [hdw] at h; cases h
  | cons b t =>
    rw [hdw] at h hy
    simp only [List.head?_cons, Option.some_inj] at h
    rw [hy, List.cons_append, List.head?_cons, h]

theorem sf_head_not_ws (cs : List Char) :
    ∀ a, (stripAndRemoveSpaces cs).head? = some a → isPyWs a = false := by
  intro a ha
  unfold stripAndRemoveSpaces at ha
  cases hcs : pyStrip cs with
  | nil => rw [hcs] at ha; cases ha
  | cons b t =>
    have hb : isPyWs b = false := by
      have hh1 : (dropTrailing isPyWs (cs.dropWhile isPyWs)).head? = some b := by
        show (pyStrip cs).head? = some b
        rw [hcs]; rfl
      exact head?_dropWhile (head?_dropTrailing hh1)
    rw [hcs, List.filter_cons_of_pos (p := fun c => c != ' ')
      (not_space_of_not_ws hb)] at ha
    simp only [List.head?_cons, Option.some_inj] at ha
    rw [← ha]; exact hb

theorem sf_last_not_ws (cs : List Char) :
    ∀ a, (stripAndRemoveSpaces cs).getLast? = some a → isPyWs a = false := by
  intro a ha
  rw [List.getLast?_eq_head?_reverse] at ha
  unfold stripAndRemoveSpaces pyStrip dropTrailing at ha
  rw [← List.filter_reverse, List.reverse_reverse] at ha
  cases hzz : (cs.dropWhile isPyWs).reverse.dropWhile isPyWs with
  | nil => rw [hzz] at ha; cases ha
  | cons b t =>
    have hb : isPyWs b = false := by
      have hh2 : ((cs.dropWhile isPyWs).reverse.dropWhile isPyWs).head? = some b := by
        rw [hzz]; rfl
      exact head?_dropWhile hh2
    rw [hzz, List.filter_cons_of_pos (p := fun c => c != ' ')
      (not_space_of_not_ws hb)] at ha
    simp only [List.head?_cons, Option.some_inj] at ha
    rw [← ha]; exact hb

/-! # C10 development: mapEnd00 and fmt character classes -/

theorem endsDash0000_length {cs : List Char} (h : endsDash0000 cs = true) :
    6 ≤ cs.length := by
  obtain ⟨pre, hpre⟩ := List.isSuffixOf_iff_suffix.mp h
  rw [← hpre]
  simp

theorem ends_append24_false (z : List Char) :
    endsDash0000 (z ++ ['-', '2', '4', ':', '0', '0']) = false := by
  by_contra hcon
  have h : endsDash0000 (z ++ ['-', '2', '4', ':', '0', '0']) = true := by
    revert hcon; cases endsDash0000 (z ++ ['-', '2', '4', ':', '0', '0']) <;> simp
  obtain ⟨pre, hpre⟩ := List.isSuffixOf_iff_suffix.mp h
  have heq : (['-', '0', '0', ':', '0', '0'] : List Char) =
      ['-', '2', '4', ':', '0', '0'] := (List.append_inj' hpre rfl).2
  exact absurd heq (by decide)

theorem fmt02_chars {n : Int} : ∀ c ∈ fmt02 n, isDig c = true ∨ c = '-' := by
  intro c hc
  unfold fmt02 at hc
  by_cases hn : n < 0
  · rw [if_pos hn] at hc
    rcases List.mem_cons.mp hc with rfl | hc'
    · right; rfl
    · left
      exact List.all_eq_true.mp (natToDigits_all_dig _) c hc'
  · rw [if_neg hn] at hc
    simp only [] at hc
    by_cases hl : (natToDigits n.toNat).length < 2
    · rw [if_pos hl] at hc
      rcases List.mem_cons.mp hc with rfl | hc'
      · left; rfl
      · left; exact List.all_eq_true.mp (natToDigits_all_dig _) c hc'
    · rw [if_neg hl] at hc
      left; exact List.all_eq_true.mp (natToDigits_all_dig _) c hc

theorem fmt02_not_ws {n : Int} : ∀ c ∈ fmt02 n, isPyWs c = false := by
  intro c hc
  rcases fmt02_chars c hc with hd | rfl
  · exact (isDig_char_facts hd).1
  · rfl

theorem fmt02_no_colon {n : Int} : ∀ c ∈ fmt02 n, (c == ':') = false := by
  intro c hc
  rcases fmt02_chars c hc with hd | rfl
  · exact (isDig_char_facts hd).2.2.2.1
  · rfl

theorem fmt02_no_dash_of_nonneg {n : Int} (hn : ¬ n < 0) :
    ∀ c ∈ fmt02 n, (c == '-') = false := by
  intro c hc
  unfold fmt02 at hc
  rw [if_neg hn] at hc
  simp only [] at hc
  by_cases hl : (natToDigits n.toNat).length < 2
  · rw [if_pos hl] at hc
    rcases List.mem_cons.mp hc with rfl | hc'
    · rfl
    · exact (isDig_char_facts (List.all_eq_true.mp (natToDigits_all_dig _) c hc')).2.1
  · rw [if_neg hl] at hc
    exact (isDig_char_facts (List.all_eq_true.mp (natToDigits_all_dig _) c hc)).2.1

theorem fmtQuad_not_ws {ah am bh bm : Int} :
    ∀ c ∈ fmtQuad ah am bh bm, isPyWs c = false := by
  intro c hc
  unfold fmtQuad at hc
  rcases List.mem_append.mp hc with h1 | h2
  · exact fmt02_not_ws c h1
  · rcases List.mem_cons.mp h2 with rfl | h3
    · rfl
    · rcases List.mem_append.mp h3 with h4 | h5
      · exact fmt02_not_ws c h4
      · rcases List.mem_cons.mp h5 with rfl | h6
        · rfl
        · rcases List.mem_append.mp h6 with h7 | h8
          · exact fmt02_not_ws c h7
          · rcases List.mem_cons.mp h8 with rfl | h9
            · rfl
            · exact fmt02_not_ws c h9

theorem mapEnd00_no_space {cs : List Char} (h : ∀ c ∈ cs, (c != ' ') = true) :
    ∀ c ∈ mapEnd00 cs, (c != ' ') = true := by
  intro c hc
  unfold mapEnd00 at hc
  by_cases he : endsDash0000 cs = true
  · rw [if_pos he] at hc
    rcases List.mem_append.mp hc with h1 | h2
    · unfold pyDropLast5 at h1
      exact h c (List.take_subset _ _ h1)
    · fin_cases h2 <;> rfl
  · rw [if_neg he] at hc
    exact h c hc

theorem mapEnd00_head_not_ws {cs : List Char}
    (h1 : ∀ a, cs.head? = some a → isPyWs a = false) :
    ∀ a, (mapEnd00 cs).head? = some a → isPyWs a = false := by
  intro a ha
  unfold mapEnd00 at ha
  by_cases he : endsDash0000 cs = true
  · rw [if_pos he] at ha
    have hlen : 6 ≤ cs.length := endsDash0000_length he
    unfold pyDropLast5 at ha
    cases cs with
    | nil => simp at hlen
    | cons b t =>
      have htake : (b :: t).take ((b :: t).length - 5) =
          b :: t.take (t.length - 5) := by
        have : (b :: t).length - 5 = (t.length - 5) + 1 := by
          simp only [List.length_cons] at hlen ⊢
          omega
        rw [this, List.take_succ_cons]
      rw [htake, List.cons_append, List.head?_cons, Option.some_inj] at ha
      rw [← ha]
      exact h1 b rfl
  · rw [if_neg he] at ha
    exact h1 a ha

theorem mapEnd00_last_not_ws {cs : List Char}
    (h2 : ∀ a, cs.getLast? = some a → isPyWs a = false) :
    ∀ a, (mapEnd00 cs).getLast? = some a → isPyWs a = false := by
  intro a ha
  unfold mapEnd00 at ha
  by_cases he : endsDash0000 cs = true
  · rw [if_pos he] at ha
    rw [List.getLast?_eq_head?_reverse, List.reverse_append] at ha
    simp only [List.reverse_cons] at ha
    norm_num at ha
    rw [← ha]
    rfl
  · rw [if_neg he] at ha
    exact h2 a ha

/-! # C10 development: the normalizer output is strip-stable -/

theorem normChars_eq_of_parse_none {cs : List Char}
    (hp : parseBody (mapEnd00 (stripAndRemoveSpaces cs)) = none) :
    normChars cs = mapEnd00 (stripAndRemoveSpaces cs) := by
  unfold normChars
  simp only [hp]

theorem normChars_eq_of_parse_some {cs : List Char} {ah am bh bm : Int}
    (hp : parseBody (mapEnd00 (stripAndRemoveSpaces cs)) = some (ah, am, bh, bm)) :
    normChars cs = fmtQuad ah am bh bm := by
  unfold normChars
  simp only [hp]

theorem sf_normChars (cs : List Char) :
    stripAndRemoveSpaces (normChars cs) = normChars cs := by
  cases hp : parseBody (mapEnd00 (stripAndRemoveSpaces cs)) with
  | none =>
    rw [normChars_eq_of_parse_none hp]
    exact sf_noop (mapEnd00_head_not_ws (sf_head_not_ws cs))
      (mapEnd00_last_not_ws (sf_last_not_ws cs))
      (mapEnd00_no_space (sf_no_space cs))
  | some q =>
    obtain ⟨ah, am, bh, bm⟩ := q
    rw [normChars_eq_of_parse_some hp]
    exact sf_noop_all fmtQuad_not_ws

/-! # C10 development: split lemmas -/

theorem splitFirst_cons_eq (sep c : Char) (z : List Char) :
    splitFirst sep (c :: z) =
      if (c == sep) = true then some ([], z)
      else (splitFirst sep z).map (fun p => (c :: p.1, p.2)) := rfl

theorem splitFirst_cons_sep (sep : Char) (z : List Char) :
    splitFirst sep (sep :: z) = some ([], z) := by
  rw [splitFirst_cons_eq, if_pos (by simp)]

theorem splitFirst_cons_of_ne {sep c : Char} (z : List Char)
    (hc : (c == sep) = false) :
    splitFirst sep (c :: z) = (splitFirst sep z).map (fun p => (c :: p.1, p.2)) := by
  rw [splitFirst_cons_eq, if_neg (by simp [hc])]

theorem splitFirst_append_no_sep {sep : Char} : ∀ {x : List Char} (z : List Char),
    (∀ c ∈ x, (c == sep) = false) →
    splitFirst sep (x ++ z) =
      (splitFirst sep z).map (fun p => (x ++ p.1, p.2)) := by
  intro x
  induction x with
  | nil =>
    intro z _
    simp only [List.nil_append]
    cases splitFirst sep z with
    | none => rfl
    | some p => simp
  | cons c t ih =>
    intro z h
    have hc : (c == sep) = false := h c (List.mem_cons_self ..)
    rw [List.cons_append, splitFirst_cons_of_ne _ hc,
      ih z (fun d hd => h d (List.mem_cons_of_mem _ hd))]
    cases splitFirst sep z with
    | none => rfl
    | some p => simp

theorem splitFirst_mid {sep : Char} {x : List Char} (z : List Char)
    (h : ∀ c ∈ x, (c == sep) = false) :
    splitFirst sep (x ++ sep :: z) = some (x, z) := by
  rw [splitFirst_append_no_sep _ h, splitFirst_cons_sep]
  simp

theorem splitAll_cons_eq (sep c : Char) (z : List Char) :
    splitAll sep (c :: z) =
      if (c == sep) = true then [] :: splitAll sep z
      else
        match splitAll sep z with
        | [] => [[c]]
        | h :: t => (c :: h) :: t := rfl

theorem splitAll_cons_sep (sep : Char) (z : List Char) :
    splitAll sep (sep :: z) = [] :: splitAll sep z := by
  rw [splitAll_cons_eq, if_pos (by simp)]

theorem splitAll_ne_nil {sep : Char} : ∀ (x : List Char), splitAll sep x ≠ [] := by
  intro x
  cases x with
  | nil => simp [splitAll]
  | cons c t =>
    unfold splitAll
    by_cases hc : (c == sep) = true
    · rw [if_pos hc]; simp
    · rw [if_neg hc]
      cases splitAll sep t <;> simp

theorem splitAll_cons_of_ne {sep c : Char} (z : List Char)
    (hc : (c == sep) = false) :
    splitAll sep (c :: z) =
      (c :: (splitAll sep z).headD []) :: (splitAll sep z).tail := by
  rw [splitAll_cons_eq, if_neg (by simp [hc])]
  cases hz : splitAll sep z with
  | nil => exact absurd hz (splitAll_ne_nil z)
  | cons hh tt => rfl

theorem splitAll_no_sep {sep : Char} : ∀ {x : List Char},
    (∀ c ∈ x, (c == sep) = false) → splitAll sep x = [x] := by
  intro x
  induction x with
  | nil => intro _; rfl
  | cons c t ih =>
    intro h
    rw [splitAll_cons_of_ne _ (h c (List.mem_cons_self ..)),
      ih (fun d hd => h d (List.mem_cons_of_mem _ hd))]
    rfl

theorem splitAll_mid {sep : Char} : ∀ {x : List Char} (z : List Char),
    (∀ c ∈ x, (c == sep) = false) →
    splitAll sep (x ++ sep :: z) = x :: splitAll sep z := by
  intro x
  induction x with
  | nil => intro z _; simp only [List.nil_append]; exact splitAll_cons_sep sep z
  | cons c t ih =>
    intro z h
    rw [List.cons_append, splitAll_cons_of_ne _ (h c (List.mem_cons_self ..)),
      ih z (fun d hd => h d (List.mem_cons_of_mem _ hd))]
    rfl

/-! # C10 development: pyInt on formatted numbers -/

theorem pyInt_cons_eq (c : Char) (rest : List Char)
    (h : pyStrip (c :: rest) = c :: rest) :
    pyInt (c :: rest) =
      if c == '-' then (pyIntDigits rest).map (fun n => -(n : Int))
      else if c == '+' then (pyIntDigits rest).map (fun n => (n : Int))
      else (pyIntDigits (c :: rest)).map (fun n => (n : Int)) := by
  unfold pyInt
  rw [h]

theorem pyDigit?_of_isDig {c : Char} (h : isDig c = true) :
    pyDigit? c = some (dval c) := by
  have hc : c ∈ ['0', '1', '2', '3', '4', '5', '6', '7', '8', '9'] := by
    simpa [isDig] using h
  fin_cases hc <;> rfl

theorem digitsParsePy_cons_eq (acc : Nat) (c : Char) (rest : List Char) :
    digitsParsePy acc (c :: rest) =
      if c == '_' then
        match rest with
        | [] => none
        | c2 :: rest2 =>
          match pyDigit? c2 with
          | some d => digitsParsePy (acc * 10 + d) rest2
          | none => none
      else
        match pyDigit? c with
        | some d => digitsParsePy (acc * 10 + d) rest
        | none => none := by
  rw [digitsParsePy.eq_def]

theorem digitsParsePy_ascii : ∀ (ds : List Char) (acc : Nat),
    allDigits ds = true → digitsParsePy acc ds = some (digitsValGo acc ds) := by
  intro ds
  induction ds with
  | nil => intro acc _; rfl
  | cons c rest ih =>
    intro acc hd
    have hc : isDig c = true := List.all_eq_true.mp hd c (List.mem_cons_self ..)
    have hrest : allDigits rest = true := by
      simp [allDigits] at hd ⊢
      exact hd.2
    have hu : (c == '_') = false := (isDig_char_facts hc).2.2.2.2.2
    rw [digitsParsePy_cons_eq, if_neg (by simp [hu]), pyDigit?_of_isDig hc]
    exact ih (acc * 10 + dval c) hrest

theorem pyIntDigits_ascii {ds : List Char} (hne : ds ≠ [])
    (hd : allDigits ds = true) :
    pyIntDigits ds = some (digitsVal ds) := by
  cases ds with
  | nil => exact absurd rfl hne
  | cons c rest =>
    have hc : isDig c = true := List.all_eq_true.mp hd c (List.mem_cons_self ..)
    have hrest : allDigits rest = true := by
      simp [allDigits] at hd ⊢
      exact hd.2
    show (match pyDigit? c with
      | some d => digitsParsePy d rest
      | none => none) = some (digitsVal (c :: rest))
    rw [pyDigit?_of_isDig hc]
    show digitsParsePy (dval c) rest = some (digitsVal (c :: rest))
    rw [digitsParsePy_ascii rest (dval c) hrest]
    congr 1
    show digitsValGo (dval c) rest = digitsValGo (0 * 10 + dval c) rest
    congr 1
    omega

theorem pyInt_pos_digits {ds : List Char} (hne : ds ≠ [])
    (hd : allDigits ds = true) :
    pyInt ds = some ((digitsVal ds : Nat) : Int) := by
  have hnw : ∀ c ∈ ds, isPyWs c = false := fun c hc =>
    (isDig_char_facts (List.all_eq_true.mp hd c hc)).1
  cases ds with
  | nil => exact absurd rfl hne
  | cons c rest =>
    have hstrip : pyStrip (c :: rest) = c :: rest := pyStrip_eq_self_all hnw
    rw [pyInt_cons_eq c rest hstrip]
    have hc : isDig c = true := List.all_eq_true.mp hd c (List.mem_cons_self ..)
    obtain ⟨-, hminus, hplus, -, -, -⟩ := isDig_char_facts hc
    rw [if_neg (by simp [hminus]), if_neg (by simp [hplus]),
      pyIntDigits_ascii hne hd]
    rfl

theorem pyInt_neg_digits {ds : List Char} (hne : ds ≠ [])
    (hd : allDigits ds = true) :
    pyInt ('-' :: ds) = some (-(digitsVal ds : Int)) := by
  have hnw : ∀ c ∈ ('-' :: ds), isPyWs c = false := by
    intro c hc
    rcases List.mem_cons.mp hc with rfl | hc'
    · decide
    · exact (isDig_char_facts (List.all_eq_true.mp hd c hc')).1
  rw [pyInt_cons_eq '-' ds (pyStrip_eq_self_all hnw)]
  rw [if_pos (by simp), pyIntDigits_ascii hne hd]
  rfl

theorem digitsVal_cons_zero (ds : List Char) :
    digitsVal ('0' :: ds) = digitsVal ds := by
  show digitsValGo (0 * 10 + dval '0') ds = digitsValGo 0 ds
  have : 0 * 10 + dval '0' = 0 := rfl
  rw [this]

theorem pyInt_fmt02 (n : Int) : pyInt (fmt02 n) = some n := by
  by_cases hn : n < 0
  · have he : fmt02 n = '-' :: natToDigits n.natAbs := by
      unfold fmt02; rw [if_pos hn]
    rw [he, pyInt_neg_digits (natToDigits_ne_nil _) (natToDigits_all_dig _),
      digitsVal_natToDigits]
    congr 1
    omega
  · unfold fmt02
    rw [if_neg hn]
    simp only []
    by_cases hl : (natToDigits n.toNat).length < 2
    · rw [if_pos hl]
      have hall : allDigits ('0' :: natToDigits n.toNat) = true := by
        have hh := natToDigits_all_dig n.toNat
        simp [allDigits] at hh ⊢
        exact ⟨rfl, hh⟩
      rw [pyInt_pos_digits (by simp) hall, digitsVal_cons_zero,
        digitsVal_natToDigits]
      congr 1
      omega
    · rw [if_neg hl]
      rw [pyInt_pos_digits (natToDigits_ne_nil _) (natToDigits_all_dig _),
        digitsVal_natToDigits]
      congr 1
      omega

/-! # C10 development: parsing a reformatted label -/

theorem parse_fmtQuad (ah am bh bm : Int) :
    parseBody (fmtQuad ah am bh bm) = some (ah, am, bh, bm) ∨
    parseBody (fmtQuad ah am bh bm) = none := by
  by_cases hah : ah < 0
  · right
    have he : fmtQuad ah am bh bm =
        '-' :: (natToDigits ah.natAbs ++ ':' ::
          (fmt02 am ++ '-' :: (fmt02 bh ++ ':' :: fmt02 bm))) := by
      unfold fmtQuad fmt02
      rw [if_pos hah]
      simp
    unfold parseBody
    rw [he, splitFirst_cons_sep]
    simp only []
    rfl
  · by_cases ham : am < 0
    · right
      have he : fmtQuad ah am bh bm =
          (fmt02 ah ++ [':']) ++ '-' :: (natToDigits am.natAbs ++ '-' ::
            (fmt02 bh ++ ':' :: fmt02 bm)) := by
      -- fmt02 am = '-' :: digits, so the first dash sits right after the colon
        have h2 : fmt02 am = '-' :: natToDigits am.natAbs := by
          unfold fmt02; rw [if_pos ham]
        unfold fmtQuad
        rw [h2]
        simp
      have hx : ∀ c ∈ fmt02 ah ++ [':'], (c == '-') = false := by
        intro c hc
        rcases List.mem_append.mp hc with h1 | h2
        · exact fmt02_no_dash_of_nonneg hah c h1
        · rcases List.mem_cons.mp h2 with rfl | h3
          · rfl
          · cases h3
      unfold parseBody
      rw [he, splitFirst_mid _ hx]
      simp only []
      have ha2 : splitAll ':' (fmt02 ah ++ [':']) = [fmt02 ah, []] := by
        have := splitAll_mid ([] : List Char) (fmt02_no_colon (n := ah))
        simpa [splitAll] using this
      rw [ha2]
      have : pyInt ([] : List Char) = none := rfl
      cases hsb : splitAll ':' (natToDigits am.natAbs ++ '-' ::
          (fmt02 bh ++ ':' :: fmt02 bm)) with
      | nil => rfl
      | cons u v =>
        cases v with
        | nil => rfl
        | cons u2 v2 =>
          cases v2 with
          | nil =>
            show (match pyInt (fmt02 ah), pyInt ([] : List Char), pyInt u, pyInt u2 with
              | some x, some y, some z, some w => some (x, y, z, w)
              | _, _, _, _ => none) = none
            rw [this]
            cases pyInt (fmt02 ah) <;> cases pyInt u <;> cases pyInt u2 <;> rfl
          | cons u3 v3 => rfl
    · -- ah ≥ 0 and am ≥ 0: parse succeeds and returns the same quadruple
      left
      have he : fmtQuad ah am bh bm =
          (fmt02 ah ++ ':' :: fmt02 am) ++ '-' ::
            (fmt02 bh ++ ':' :: fmt02 bm) := by
        unfold fmtQuad
        simp
      have hx : ∀ c ∈ fmt02 ah ++ ':' :: fmt02 am, (c == '-') = false := by
        intro c hc
        rcases List.mem_append.mp hc with h1 | h2
        · exact fmt02_no_dash_of_nonneg hah c h1
        · rcases List.mem_cons.mp h2 with rfl | h3
          · rfl
          · exact fmt02_no_dash_of_nonneg ham c h3
      unfold parseBody
      rw [he, splitFirst_mid _ hx]
      simp only []
      rw [splitAll_mid (fmt02 am) (fmt02_no_colon (n := ah)),
        splitAll_no_sep (fmt02_no_colon (n := am)),
        splitAll_mid (fmt02 bm) (fmt02_no_colon (n := bh)),
        splitAll_no_sep (fmt02_no_colon (n := bm))]
      show (match pyInt (fmt02 ah), pyInt (fmt02 am), pyInt (fmt02 bh), pyInt (fmt02 bm) with
        | some x, some y, some z, some w => some (x, y, z, w)
        | _, _, _, _ => none) = some (ah, am, bh, bm)
      rw [pyInt_fmt02, pyInt_fmt02, pyInt_fmt02, pyInt_fmt02]

/-! # C10 development: conditional idempotence -/

theorem normChars_idem_of_not_ends {cs : List Char}
    (h : endsDash0000 (normChars cs) = false) :
    normChars (normChars cs) = normChars cs := by
  have hsf : stripAndRemoveSpaces (normChars cs) = normChars cs := sf_normChars cs
  have hme : mapEnd00 (normChars cs) = normChars cs := by
    unfold mapEnd00
    rw [if_neg (by simp [h])]
  cases hp : parseBody (mapEnd00 (stripAndRemoveSpaces cs)) with
  | none =>
    have hout : normChars cs = mapEnd00 (stripAndRemoveSpaces cs) :=
      normChars_eq_of_parse_none hp
    have hp2 : parseBody (mapEnd00 (stripAndRemoveSpaces (normChars cs))) = none := by
      rw [hsf, hme, hout, hp]
    rw [normChars_eq_of_parse_none hp2, hsf, hme]
  | some q =>
    obtain ⟨ah, am, bh, bm⟩ := q
    have hout : normChars cs = fmtQuad ah am bh bm :=
      normChars_eq_of_parse_some hp
    rcases parse_fmtQuad ah am bh bm with hq | hq
    · have hp2 : parseBody (mapEnd00 (stripAndRemoveSpaces (normChars cs))) =
          some (ah, am, bh, bm) := by
        rw [hsf, hme, hout, hq]
      rw [normChars_eq_of_parse_some hp2, hout]
    · have hp2 : parseBody (mapEnd00 (stripAndRemoveSpaces (normChars cs))) = none := by
        rw [hsf, hme, hout, hq]
      rw [normChars_eq_of_parse_none hp2, hsf, hme]

/-! # Injectivity of the canonical labels -/

theorem canonLabel_split (stepMin : Int) (hs : 0 < stepMin) (k : Nat) :
    splitFirst '-' (canonLabelChars stepMin k) =
      some (fmt02 ((k : Int) * stepMin / 60) ++
          ':' :: fmt02 ((k : Int) * stepMin % 60),
        if ((k : Int) + 1) * stepMin = 1440 then ['2', '4', ':', '0', '0']
        else fmt02 (((k : Int) + 1) * stepMin / 60) ++
          ':' :: fmt02 ((((k : Int) + 1) * stepMin) % 60)) := by
  have hnn : (0 : Int) ≤ (k : Int) * stepMin :=
    mul_nonneg (Int.natCast_nonneg k) (le_of_lt hs)
  unfold canonLabelChars
  apply splitFirst_mid
  intro c hc
  rcases List.mem_append.mp hc with h1 | h2
  · exact fmt02_no_dash_of_nonneg (by omega) c h1
  · rcases List.mem_cons.mp h2 with rfl | h3
    · rfl
    · exact fmt02_no_dash_of_nonneg (by omega) c h3

theorem canonLabel_inj {stepMin : Int} (hs : 0 < stepMin) {i j : Nat}
    (h : canonLabel stepMin i = canonLabel stepMin j) : i = j := by
  have hdata : canonLabelChars stepMin i = canonLabelChars stepMin j :=
    congrArg String.data h
  have hSome := congrArg (splitFirst '-') hdata
  rw [canonLabel_split stepMin hs i, canonLabel_split stepMin hs j] at hSome
  have hp := congrArg Prod.fst (Option.some_inj.mp hSome)
  have hsa := congrArg (splitAll ':') hp
  simp only [] at hsa
  rw [splitAll_mid _ fmt02_no_colon, splitAll_mid _ fmt02_no_colon,
    splitAll_no_sep fmt02_no_colon, splitAll_no_sep fmt02_no_colon] at hsa
  have hsh : fmt02 ((i : Int) * stepMin / 60) =
      fmt02 ((j : Int) * stepMin / 60) := by
    injection hsa
  have hsm : fmt02 ((i : Int) * stepMin % 60) =
      fmt02 ((j : Int) * stepMin % 60) := by
    have h2 := hsa
    injection h2 with hh ht
    injection ht
  have he1 : (i : Int) * stepMin / 60 = (j : Int) * stepMin / 60 := by
    have hq := congrArg pyInt hsh
    rw [pyInt_fmt02, pyInt_fmt02] at hq
    exact Option.some_inj.mp hq
  have he2 : (i : Int) * stepMin % 60 = (j : Int) * stepMin % 60 := by
    have hq := congrArg pyInt hsm
    rw [pyInt_fmt02, pyInt_fmt02] at hq
    exact Option.some_inj.mp hq
  have hkey : (i : Int) * stepMin = (j : Int) * stepMin := by
    omega
  have hij : (i : Int) = (j : Int) :=
    mul_right_cancel₀ (by omega : stepMin ≠ 0) hkey
  exact_mod_cast hij

/-! # Claim C1: zero-safety gate -/

/-- C1.  Zero-safety gate: whenever the final BUY series contains a `0.0`
entry, the POST is skipped (returning the non-error outcome `skippedZero`)
when `--allow-zero-buy` is unset, regardless of `--dry-run`; and when the
flag is set and `--dry-run` is not, the zeros do not suppress the POST. -/
theorem zero_gate_correct (buyRanges : List (String × ℚ)) (dryRun : Bool)
    (h : finalHasZero buyRanges = true) :
    submitDecision buyRanges dryRun false = SubmitOutcome.skippedZero ∧
    submitDecision buyRanges false true = SubmitOutcome.posted := by
  constructor <;> simp [submitDecision, h]

theorem zero_gate_correct_witness :
    submitDecision [("00:00-00:30", (0 : ℚ))] true false = SubmitOutcome.skippedZero ∧
    submitDecision [("00:00-00:30", (0 : ℚ))] false true = SubmitOutcome.posted :=
  zero_gate_correct [("00:00-00:30", (0 : ℚ))] true (by decide)

/-! # Claim C5: midnight label normalization -/

/-- C5.  Evaluation at the failing input: the source's `s[:-5] + "-24:00"`
keeps the original dash of `"-00:00"`, so `_norm_label("23:30-00:00")` is
`"23:30--24:00"` (double hyphen), which is NOT the string
`_norm_label("23:30-24:00") = "23:30-24:00"`; the two labels therefore do
not compare equal after normalization, contradicting the function's own
docstring ("map '-00:00' (end) to '-24:00'"). -/
theorem norm_label_midnight_divergence :
    normLabel "23:30-00:00" = "23:30--24:00" ∧
    normLabel "23:30-24:00" = "23:30-24:00" ∧
    normLabel "23:30-00:00" ≠ normLabel "23:30-24:00" := by
  refine ⟨by decide, by decide, by decide⟩

unseal Rat.mul Rat.add Rat.sub Rat.inv in
theorem round2_zero : round2 0 = 0 := by decide

theorem windowLoopGo_length (stepMin : Int) (hs : 0 < stepMin) :
    ∀ (k : Nat) (fuel : Nat) (t : Int), k ≤ fuel →
      (windowLoopGo stepMin fuel t (t + (k : Int) * stepMin)).length = k := by
  intro k
  induction k with
  | zero =>
    intro fuel t _
    cases fuel with
    | zero => rfl
    | succ f => simp [windowLoopGo]
  | succ n ih =>
    intro fuel t hk
    cases fuel with
    | zero => omega
    | succ f =>
      have hpos : (0 : Int) < ((n : Nat) + 1 : Int) * stepMin := by positivity
      have hlt : t < t + ((n : Nat) + 1 : Int) * stepMin := by omega
      unfold windowLoopGo
      rw [if_pos (by push_cast; omega)]
      simp only [List.length_cons]
      have harith : t + ((n + 1 : Nat) : Int) * stepMin =
          (t + stepMin) + ((n : Nat) : Int) * stepMin := by push_cast; ring
      rw [harith, ih f (t + stepMin) (by omega)]

theorem buildWindow_length (nowLocal tzOff stepMin : Int) (k : Nat)
    (hs : 0 < stepMin) (hk : (k : Int) * stepMin = 1440) (hkf : k ≤ 1440) :
    (buildWindow nowLocal tzOff stepMin).length = k := by
  unfold buildWindow windowLoop
  rw [if_pos hs]
  have hfuel : (floorToStep nowLocal stepMin - tzOff + 1440 -
      (floorToStep nowLocal stepMin - tzOff)).toNat = 1440 := by omega
  rw [hfuel, show (1440 : Int) = (k : Int) * stepMin from hk.symm]
  exact windowLoopGo_length stepMin hs k 1440 _ hkf

theorem buildGo_length (byKey : List (Int × Row)) (tzOff : Int) (key : String)
    (align : String) :
    ∀ (slots : List (Int × Int)) (last : ℚ),
      (buildGo byKey tzOff key align last slots).length = slots.length := by
  intro slots
  induction slots with
  | nil => intro last; rfl
  | cons slot rest ih =>
    intro last
    unfold buildGo
    simp only [List.length_cons]
    rw [ih]

theorem buildSeriesForWindow_length (slotsUtc : List (Int × Int)) (tzOff : Int)
    (rows : List Row) (key : String) (stepMin : Int) (align : String)
    (seed : Option ℚ) :
    (buildSeriesForWindow slotsUtc tzOff rows key stepMin align seed).length =
      slotsUtc.length := by
  unfold buildSeriesForWindow
  exact buildGo_length _ _ _ _ slotsUtc _

/-! # Claim C2: canonical day partition -/

/-- C2.  For step 5 and step 30, for every current instant (and offset, rows,
key, alignment, seed), the canonical series produced by building the window,
building the series, rotating, and canonicalizing has exactly `1440/step`
entries; entry `i` is labelled with the minute range `[i*step, (i+1)*step)`
formatted `HH:MM-HH:MM` with the final end rendered `24:00` (this is
`canonLabel`), and those labels are pairwise distinct, so they partition
`[00:00, 24:00]` with no gaps or overlaps. -/
theorem pipeline_labels_partition (stepMin : Int) (hstep : stepMin = 5 ∨ stepMin = 30)
    (nowLocal tzOff : Int) (rows : List Row) (key align : String) (seed : Option ℚ) :
    (pipelineSeries nowLocal tzOff stepMin rows key align seed).length =
      ((1440 : Int) / stepMin).toNat ∧
    (pipelineSeries nowLocal tzOff stepMin rows key align seed).map Prod.fst =
      (List.range ((1440 : Int) / stepMin).toNat).map (canonLabel stepMin) ∧
    ((List.range ((1440 : Int) / stepMin).toNat).map (canonLabel stepMin)).Nodup := by
  have hs : 0 < stepMin := by rcases hstep with rfl | rfl <;> norm_num
  have hk : ((((1440 : Int) / stepMin).toNat : Int)) * stepMin = 1440 := by
    rcases hstep with rfl | rfl <;> norm_num
  have hkf : ((1440 : Int) / stepMin).toNat ≤ 1440 := by
    rcases hstep with rfl | rfl <;> norm_num
  have hwin : (buildWindow nowLocal tzOff stepMin).length =
      ((1440 : Int) / stepMin).toNat :=
    buildWindow_length nowLocal tzOff stepMin _ hs hk hkf
  have hinner : (rotateSeriesToMidnight
      (buildSeriesForWindow (buildWindow nowLocal tzOff stepMin) tzOff rows key
        stepMin align seed)).length = ((1440 : Int) / stepMin).toNat := by
    rw [rotateSeriesToMidnight_length, buildSeriesForWindow_length, hwin]
  refine ⟨?_, ?_, ?_⟩
  · unfold pipelineSeries
    rw [canonicalizeSeriesToDay_length, hinner]
  · unfold pipelineSeries
    rw [canonicalizeSeriesToDay_labels, hinner]
  · exact List.Nodup.map (fun a b hab => canonLabel_inj hs hab)
      (List.nodup_range _)

theorem pipeline_labels_partition_witness :
    (pipelineSeries 614 0 30 [] "perKwh" "end" none).length =
      ((1440 : Int) / 30).toNat :=
  (pipeline_labels_partition 30 (Or.inr rfl) 614 0 [] "perKwh" "end" none).1

/-! # Claim C6: override patch semantics -/

/-- C6.  At the resolved target bucket: a missing BUY value or the sentinel
zero skips the patch, appends the `"current <label>"` zero-diagnostic tag,
and keeps the bucket's value; a non-zero BUY value is written rounded to two
decimals.  A missing SELL value skips the patch (recording the skip
diagnostic); any present SELL value — zero included — is written rounded. -/
theorem override_patch_semantics (s : List (String × ℚ)) (i : Nat) (lbl : String)
    (oldv : ℚ) (h : s.get? i = some (lbl, oldv)) (v : ℚ) (hv : v ≠ 0) :
    buyPatchAt s i none = (s, ["current " ++ lbl], [.skipBuyZeroOrMissing lbl]) ∧
    buyPatchAt s i (some 0) = (s, ["current " ++ lbl], [.skipBuyZeroOrMissing lbl]) ∧
    buyPatchAt s i (some v) =
      (s.set i (lbl, round2 v), [], [.overrodeBuy lbl oldv (round2 v)]) ∧
    sellPatchAt s i none = (s, [.skipSellMissing lbl]) ∧
    sellPatchAt s i (some 0) = (s.set i (lbl, 0), [.overrodeSell lbl oldv 0]) ∧
    sellPatchAt s i (some v) =
      (s.set i (lbl, round2 v), [.overrodeSell lbl oldv (round2 v)]) := by
  refine ⟨?_, ?_, ?_, ?_, ?_, ?_⟩ <;>
    simp only [buyPatchAt, sellPatchAt, h, round2_zero] <;>
    simp [hv]

theorem override_patch_semantics_witness :
    buyPatchAt [("00:00-00:30", (5 : ℚ))] 0 (some 7) =
      ([("00:00-00:30", round2 7)], [],
        [.overrodeBuy "00:00-00:30" 5 (round2 7)]) :=
  (override_patch_semantics [("00:00-00:30", (5 : ℚ))] 0 "00:00-00:30" 5 rfl 7
    (by decide)).2.2.1

/-! # Claim C8: rotation to midnight -/

/-- C8.  `rotate_series_to_midnight` preserves length and is always a pure
circular shift (`drop k ++ take k`); when no label starts at local midnight
it is the identity (a tolerated no-op, not an error); when some label does,
the result is the shift at the FIRST such index, whose entry becomes the
head of the result. -/
theorem rotate_to_midnight_spec (series : List (String × ℚ)) :
    (rotateSeriesToMidnight series).length = series.length ∧
    (∃ k, k ≤ series.length ∧
      rotateSeriesToMidnight series = series.drop k ++ series.take k) ∧
    ((∀ e ∈ series, startsMidnight e.1 = false) →
      rotateSeriesToMidnight series = series) ∧
    (∀ i, findFirstIdx (fun e => startsMidnight e.1) series = some i →
      ∃ e, (rotateSeriesToMidnight series).head? = some e ∧
        startsMidnight e.1 = true ∧
        rotateSeriesToMidnight series = series.drop i ++ series.take i) := by
  refine ⟨rotateSeriesToMidnight_length series, ?_, ?_, ?_⟩
  · unfold rotateSeriesToMidnight
    cases h : findFirstIdx (fun e => startsMidnight e.1) series with
    | none => exact ⟨0, Nat.zero_le _, by simp⟩
    | some i =>
      obtain ⟨a, hget, _⟩ := findFirstIdx_eq_some h
      exact ⟨i, Nat.le_of_lt (get?_some_lt hget), rfl⟩
  · intro hall
    unfold rotateSeriesToMidnight
    cases h : findFirstIdx (fun e => startsMidnight e.1) series with
    | none => rfl
    | some i =>
      obtain ⟨a, hget, hp⟩ := findFirstIdx_eq_some h
      have : a ∈ series := List.get?_mem hget
      rw [hall a this] at hp
      cases hp
  · intro i h
    obtain ⟨a, hget, hp⟩ := findFirstIdx_eq_some h
    have hlt := get?_some_lt hget
    have hrot : rotateSeriesToMidnight series = series.drop i ++ series.take i := by
      unfold rotateSeriesToMidnight
      rw [h]
    refine ⟨a, ?_, hp, hrot⟩
    rw [hrot, List.drop_eq_getElem_cons hlt]
    have : series[i] = a := by
      have h2 := hget
      rw [List.get?_eq_getElem?, List.getElem?_eq_getElem hlt] at h2
      exact Option.some_inj.mp h2
    simp [this]

theorem rotate_to_midnight_spec_witness :
    ∃ e, (rotateSeriesToMidnight
        [("23:30-00:00", (1 : ℚ)), ("00:00-00:30", (2 : ℚ))]).head? = some e ∧
      startsMidnight e.1 = true ∧
      rotateSeriesToMidnight [("23:30-00:00", (1 : ℚ)), ("00:00-00:30", (2 : ℚ))] =
        List.drop 1 [("23:30-00:00", (1 : ℚ)), ("00:00-00:30", (2 : ℚ))] ++
          List.take 1 [("23:30-00:00", (1 : ℚ)), ("00:00-00:30", (2 : ℚ))] :=
  (rotate_to_midnight_spec [("23:30-00:00", (1 : ℚ)), ("00:00-00:30", (2 : ℚ))]).2.2.2
    1 (by decide)

/-! # Claim C3: carry-forward on an empty window -/

theorem buildGo_const (byKey : List (Int × Row)) (tzOff : Int) (key : String)
    (align : String) :
    ∀ (slots : List (Int × Int)) (last : ℚ),
      (∀ s ∈ slots, pyDictFind byKey (anchorOf align s) = none) →
      ∀ e ∈ buildGo byKey tzOff key align last slots, e.2 = round2 last := by
  intro slots
  induction slots with
  | nil => intro last _ e he; simp [buildGo] at he
  | cons slot rest ih =>
    intro last h e he
    have hs : pyDictFind byKey (anchorOf align slot) = none :=
      h slot (List.mem_cons_self ..)
    unfold buildGo at he
    rw [hs] at he
    have hval : getValue none key = none := rfl
    rw [hval] at he
    rcases List.mem_cons.mp he with rfl | he'
    · rfl
    · exact ih last (fun s hs2 => h s (List.mem_cons_of_mem _ hs2)) e he'

/-- C3 (amended).  Carry-forward idempotence: when no slot's anchor instant
has an indexed row, every entry of the built series carries the same value,
namely the seed ROUNDED TO TWO DECIMALS (the source emits `round(last, 2)`),
which is the seed itself whenever the seed is representable at two decimals,
and zero when no seed is given. -/
theorem carry_forward_constant (slots : List (Int × Int)) (tzOff : Int)
    (rows : List Row) (key : String) (stepMin : Int) (align : String)
    (seed : Option ℚ)
    (h : ∀ s ∈ slots,
      pyDictFind (alignIndex rows stepMin align) (anchorOf align s) = none) :
    ∀ e ∈ buildSeriesForWindow slots tzOff rows key stepMin align seed,
      e.2 = round2 (match seed with | none => 0 | some v => v) := by
  unfold buildSeriesForWindow
  exact buildGo_const _ _ _ _ slots _ h

unseal Rat.mul Rat.add Rat.sub Rat.inv in
theorem carry_forward_constant_witness :
    ((("00:00-00:30", (20 : ℚ)) : String × ℚ).2 = round2 20) :=
  carry_forward_constant [((0 : Int), 30)] 0 [] "perKwh" 30 "start" (some 20)
    (by decide) ("00:00-00:30", 20) (by decide)

unseal Rat.mul Rat.add Rat.sub Rat.inv in
/-- C3 counterexample.  With one slot, no rows (so every lookup is empty) and
seed `0.001`, the built series is constant `0.0` — `round(0.001, 2)` — not the
seed value, refuting the claim as literally stated. -/
theorem carry_forward_seed_counterexample :
    (∀ s ∈ [((0 : Int), 30)],
      pyDictFind (alignIndex [] 30 "start") (anchorOf "start" s) = none) ∧
    buildSeriesForWindow [((0 : Int), 30)] 0 [] "perKwh" 30 "start"
        (some (1 / 1000)) = [("00:00-00:30", 0)] ∧
    ¬ ∀ e ∈ buildSeriesForWindow [((0 : Int), 30)] 0 [] "perKwh" 30 "start"
        (some (1 / 1000)), e.2 = 1 / 1000 := by
  refine ⟨by decide, by decide, by decide⟩

/-! # Claim C4: override candidate precedence -/

/-- C4.  The resolver (stable sort by (freshness rank, temporal distance),
then head): a Current-type candidate beats a Forecast-type one with the same
start instant, in either input order; between two Current-type candidates the
one closer to the active slot start wins, in either input order. -/
theorem override_precedence (tzOff act : Int) (a b c d : Row)
    (ha : a.rtype = "CurrentInterval") (hb : b.rtype = "ForecastInterval")
    (_hab : a.startTime = b.startTime)
    (hc : c.rtype = "CurrentInterval") (hd : d.rtype = "CurrentInterval")
    (hcd : distRow tzOff act c < distRow tzOff act d) :
    chooseOverride tzOff act [a, b] = some a ∧
    chooseOverride tzOff act [b, a] = some a ∧
    chooseOverride tzOff act [c, d] = some c ∧
    chooseOverride tzOff act [d, c] = some c := by
  have ra : rankType a.rtype = 0 := by rw [ha]; rfl
  have rb : rankType b.rtype = 1 := by rw [hb]; rfl
  have rc : rankType c.rtype = 0 := by rw [hc]; rfl
  have rd : rankType d.rtype = 0 := by rw [hd]; rfl
  have h1 : tripLe tzOff act a b := Or.inl (by rw [ra, rb]; omega)
  have h2 : ¬ tripLe tzOff act b a := by
    intro hcon
    rcases hcon with hlt | ⟨heq, _⟩
    · rw [ra, rb] at hlt; omega
    · rw [ra, rb] at heq; omega
  have h3 : tripLe tzOff act c d := Or.inr ⟨by rw [rc, rd], le_of_lt hcd⟩
  have h4 : ¬ tripLe tzOff act d c := by
    intro hcon
    rcases hcon with hlt | ⟨_, hle⟩
    · rw [rc, rd] at hlt; omega
    · omega
  refine ⟨?_, ?_, ?_, ?_⟩ <;>
    simp [chooseOverride, List.insertionSort, List.orderedInsert, h1, h2, h3, h4]

theorem override_precedence_witness :
    chooseOverride 0 0 [{ rtype := "CurrentInterval", startTime := some 0 },
        { rtype := "ForecastInterval", startTime := some 0 }] =
      some { rtype := "CurrentInterval", startTime := some 0 } :=
  (override_precedence 0 0 { rtype := "CurrentInterval", startTime := some 0 }
    { rtype := "ForecastInterval", startTime := some 0 }
    { rtype := "CurrentInterval", startTime := some 60 }
    { rtype := "CurrentInterval", startTime := some 120 }
    rfl rfl rfl rfl rfl (by decide)).1

/-! # Claim C7: baseline resolver -/

theorem foldl_max_eq {a : Int} :
    ∀ (t : List Int) (b : Int), b ≤ a → (a = b ∨ a ∈ t) → (∀ x ∈ t, x ≤ a) →
      t.foldl max b = a := by
  intro t
  induction t with
  | nil =>
    intro b _ hmem _
    rcases hmem with heq | hmem'
    · simp [heq]
    · cases hmem'
  | cons c t' ih =>
    intro b hb hmem hall
    simp only [List.foldl_cons]
    have hca : c ≤ a := hall c (List.mem_cons_self ..)
    refine ih (max b c) (max_le hb hca) ?_ (fun x hx => hall x (List.mem_cons_of_mem _ hx))
    rcases hmem with heq | hmemc
    · left
      have hcb : c ≤ b := heq ▸ hca
      rw [heq, max_eq_left hcb]
    · rcases List.mem_cons.mp hmemc with heq2 | hmem''
      · left
        rw [heq2, max_eq_right (heq2 ▸ hb)]
      · right; exact hmem''

theorem max?_eq_of {l : List Int} {a : Int} (ha : a ∈ l)
    (hall : ∀ x ∈ l, x ≤ a) : l.max? = some a := by
  cases l with
  | nil => cases ha
  | cons b t =>
    show some (t.foldl max b) = some a
    exact congrArg some
      (foldl_max_eq t b (hall b (List.mem_cons_self ..)) (List.mem_cons.mp ha)
        (fun x hx => hall x (List.mem_cons_of_mem _ hx)))

/-- C7.  `last_known_before` returns `none` exactly when no indexed instant
lies strictly before the target, and otherwise returns the value extracted
(under the requested key) from the row indexed at the greatest indexed
instant strictly below the target. -/
theorem last_known_before_spec (rows : List Row) (key : String) (stepMin : Int)
    (align : String) (nowUtc : Int) :
    ((∀ t ∈ pyDictKeys (alignIndex rows stepMin align), ¬ t < nowUtc) →
      lastKnownBefore rows key stepMin align nowUtc = none) ∧
    (∀ t0 ∈ pyDictKeys (alignIndex rows stepMin align), t0 < nowUtc →
      (∀ t ∈ pyDictKeys (alignIndex rows stepMin align), t < nowUtc → t ≤ t0) →
      lastKnownBefore rows key stepMin align nowUtc =
        getValue (pyDictFind (alignIndex rows stepMin align) t0) key) := by
  constructor
  · intro h
    have hnil : ∀ x ∈ pyDictKeys (alignIndex rows stepMin align),
        ¬ (decide (x < nowUtc) = true) := fun x hx => by simpa using h x hx
    simp only [lastKnownBefore, List.filter_eq_nil_iff.mpr hnil]
    rfl
  · intro t0 ht0 hlt hbound
    have hmem : t0 ∈ (pyDictKeys (alignIndex rows stepMin align)).filter
        (fun t => decide (t < nowUtc)) :=
      List.mem_filter.mpr ⟨ht0, by simpa using hlt⟩
    have hmax : ((pyDictKeys (alignIndex rows stepMin align)).filter
        (fun t => decide (t < nowUtc))).max? = some t0 := by
      refine max?_eq_of hmem (fun x hx => ?_)
      rcases List.mem_filter.mp hx with ⟨hx1, hx2⟩
      exact hbound x hx1 (by simpa using hx2)
    simp only [lastKnownBefore, hmax]

theorem last_known_before_spec_witness :
    lastKnownBefore [({ startTime := some 0, perKwh := some 5 } : Row)]
        "perKwh" 30 "start" 30 =
      getValue (pyDictFind
        (alignIndex [({ startTime := some 0, perKwh := some 5 } : Row)] 30 "start") 0)
        "perKwh" :=
  (last_known_before_spec [({ startTime := some 0, perKwh := some 5 } : Row)]
    "perKwh" 30 "start" 30).2 0 (by decide) (by decide) (by decide)

/-! # Claim C9: override frame property -/

/-- C9.  Applying the pending override (label lookup with normalization, the
bounds-checked half-hour index fallback, then the patch) to the canonical BUY
and SELL series never changes a label, never changes the length, and rewrites
the value of at most one (in-bounds) entry of each series. -/
theorem override_frame (buyRanges sellRanges : List (String × ℚ)) (stepMin : Int)
    (target : String) (chosenBuy chosenSell : Option ℚ) :
    frameOk buyRanges (applyBuyOverride buyRanges stepMin target chosenBuy).1 ∧
    frameOk sellRanges (applySellOverride sellRanges stepMin target chosenSell).1 := by
  constructor
  · unfold applyBuyOverride
    cases findLabelIdx buyRanges target with
    | some i => exact buyPatchAt_frame buyRanges i chosenBuy
    | none =>
      cases (if stepMin = 30 then halfHourIndexFromLabel target else none) with
      | none => exact ⟨rfl, rfl, Or.inl rfl⟩
      | some i =>
        by_cases hb : 0 ≤ i ∧ i.toNat < buyRanges.length
        · simp only [if_pos hb]
          exact buyPatchAt_frame buyRanges i.toNat chosenBuy
        · simp only [if_neg hb]
          exact ⟨rfl, rfl, Or.inl rfl⟩
  · unfold applySellOverride
    cases findLabelIdx sellRanges target with
    | some i => exact sellPatchAt_frame sellRanges i chosenSell
    | none =>
      cases (if stepMin = 30 then halfHourIndexFromLabel target else none) with
      | none => exact ⟨rfl, rfl, Or.inl rfl⟩
      | some i =>
        by_cases hb : 0 ≤ i ∧ i.toNat < sellRanges.length
        · simp only [if_pos hb]
          exact sellPatchAt_frame sellRanges i.toNat chosenSell
        · simp only [if_neg hb]
          exact ⟨rfl, rfl, Or.inl rfl⟩

/-! # Claim C10: normalizer totality and idempotence -/

/-- C10 (amended).  `_norm_label` is total (every exception path returns; the
model is a total function), and it is idempotent on every input string whose
normalized form does not end in `"-00:00"`: for such `s`,
`_norm_label(_norm_label(s)) = _norm_label(s)`.  (Full idempotence fails:
see the counterexample theorem.) -/
theorem norm_label_conditional_idempotent (s : String)
    (h : endsDash0000 (normLabel s).data = false) :
    normLabel (normLabel s) = normLabel s := by
  unfold normLabel
  exact congrArg String.mk (normChars_idem_of_not_ends h)

theorem norm_label_conditional_idempotent_witness :
    normLabel (normLabel "03:5-4:00") = normLabel "03:5-4:00" :=
  norm_label_conditional_idempotent "03:5-4:00" (by decide)

/-- C10 counterexample.  `_norm_label` is not idempotent: zero-padding maps
`"05:00-0:00"` to `"05:00-00:00"`, and a second application triggers the
(buggy) end-of-day rewrite, yielding `"05:00--24:00"` which differs. -/
theorem norm_label_not_idempotent :
    normLabel "05:00-0:00" = "05:00-00:00" ∧
    normLabel (normLabel "05:00-0:00") = "05:00--24:00" ∧
    normLabel (normLabel "05:00-0:00") ≠ normLabel "05:00-0:00" := by
  refine ⟨by decide, by decide, by decide⟩

end A2S
